import Mathlib

/-!
# Verification of strawberry-vercajk list pagination, filter algebra and dataloaders

Shallow embedding of the core list/pagination/dataloader logic of the
`strawberry_vercajk` package:

* `src/strawberry_vercajk/_list/page.py` (`Page`),
* `src/strawberry_vercajk/_list/filter.py` (`FilterQ`),
* `src/strawberry_vercajk/_list/django.py` (`get_django_filter_q`),
* `src/strawberry_vercajk/_dataloaders/pk_dataloader.py` (`PKDataLoader.load_fn`),
* `src/strawberry_vercajk/_dataloaders/m2m_dataloader.py` (`M2MDataLoader.load_fn`),
* `src/strawberry_vercajk/_dataloaders/reverse_fk_list_dataloader.py`
  (`ReverseFKListDataLoader.load_fn`),
* `src/strawberry_vercajk/_dataloaders/core/dataloaders.py`
  (`BaseDataLoader.__new__`, `prime_many`, `get_loader_unique_key`).

Python sequences are modelled as `List`, Python `None` as `Option.none`,
Python dicts as functions updated by left folds (matching insertion and
overwrite order), and database fetches as explicit row lists given in the
store's iteration order.
-/

/-! ## Page (src/strawberry_vercajk/_list/page.py)

`Page` is constructed from a pageable sequence (`all_items`), a 1-based page
number and a page size.  We model the sequence as a `List`; the Python slice
`all_items[start : start + size + 1]` is `(drop start).take (size + 1)`. -/

/-- Embeds `Page._items_plus_one`: `start = (page - 1) * size;
return list(self._all_items[start : start + self._page_size + 1])`. -/
def itemsPlusOne (allItems : List α) (pageNum pageSize : Nat) : List α :=
  (allItems.drop ((pageNum - 1) * pageSize)).take (pageSize + 1)

/-- Embeds `Page.items`: `if len(items_plus_one) == self._page_size + 1: return
items_plus_one[:-1]; return items_plus_one`. -/
def pageItems (allItems : List α) (pageNum pageSize : Nat) : List α :=
  let ipo := itemsPlusOne allItems pageNum pageSize
  if ipo.length = pageSize + 1 then ipo.dropLast else ipo

/-- The Python comparison `self._items_plus_one != self._page_size + 1`
(page.py line 69) compares the fetched *list object* with an *integer*.
A Python `list` is never equal to an `int`, so this comparison is `True`
for every list and every integer; the embedding records exactly that. -/
def pyListNeInt (_xs : List α) (_n : Nat) : Bool :=
  true

/-- Embeds `Page.has_next_page`: `return self._items_plus_one != self._page_size + 1`. -/
def hasNextPage (allItems : List α) (pageNum pageSize : Nat) : Bool :=
  pyListNeInt (itemsPlusOne allItems pageNum pageSize) (pageSize + 1)

/-- Embeds `Page.has_previous_page`: `return self._page_num > 1`. -/
def hasPreviousPage (pageNum : Nat) : Bool :=
  decide (pageNum > 1)

/-- Embeds `Page.total_items_count`: `return self._all_items.count()` — the count of
the full underlying sequence. -/
def totalItemsCount (allItems : List α) : Nat :=
  allItems.length

/-- Embeds `Page.total_pages_count`: `return math.ceil(self.total_items_count /
self.page_size)` — the ceiling of the true division. -/
def totalPagesCount (allItems : List α) (pageSize : Nat) : Nat :=
  ⌈(totalItemsCount allItems : ℚ) / (pageSize : ℚ)⌉₊

/-! ## FilterQ (src/strawberry_vercajk/_list/filter.py)

`FilterQ` is a dataclass with fields `field`, `lookup`, `value` (all
defaulting to `None`) and private combination fields `_left`, `_right`,
`_operator`.  Values are built from the constructor (leaves and `Noop`),
`__and__`, `__or__` and `__invert__`; the inductive below has one
constructor per construction site.  Values of filter leaves are modelled
as `Nat`. -/

inductive FilterQ where
  /-- Plain `FilterQ(field=…, lookup=…, value=…)` with no operator; `FilterQ()`
  (all fields `None`) is the `Noop` tree. -/
  | base (field lookup : Option String) (value : Option Nat)
  /-- Node built by `__and__`: `FilterQ(_left=self, _right=other, _operator="AND")`. -/
  | fand (left right : FilterQ)
  /-- Node built by `__or__`: `FilterQ(_left=self, _right=other, _operator="OR")`. -/
  | for_ (left right : FilterQ)
  /-- A node with `_operator="NOT"`: carries only `field`, `lookup`, `value`
  (the constructor call in `__invert__` leaves `_left`/`_right` at `None`). -/
  | fnot (field lookup : Option String) (value : Option Nat)
deriving DecidableEq

/-- The `Noop` tree `FilterQ()`. -/
def FilterQ.noop : FilterQ :=
  .base none none none

/-- The dataclass attribute `FilterQ.field` (`None` on `__and__`/`__or__`
results, whose constructor call leaves it at its default). -/
def FilterQ.fieldAttr : FilterQ → Option String
  | .base f _ _ => f
  | .fand _ _ => none
  | .for_ _ _ => none
  | .fnot f _ _ => f

/-- The dataclass attribute `FilterQ.lookup`. -/
def FilterQ.lookupAttr : FilterQ → Option String
  | .base _ l _ => l
  | .fand _ _ => none
  | .for_ _ _ => none
  | .fnot _ l _ => l

/-- The dataclass attribute `FilterQ.value`. -/
def FilterQ.valueAttr : FilterQ → Option Nat
  | .base _ _ v => v
  | .fand _ _ => none
  | .for_ _ _ => none
  | .fnot _ _ v => v

/-- Embeds `FilterQ.__invert__`: `return FilterQ(field=self.field, lookup=self.lookup,
value=self.value, _operator="NOT")` — note it copies only the scalar
attributes and drops `_left`/`_right`. -/
def FilterQ.finvert (q : FilterQ) : FilterQ :=
  .fnot q.fieldAttr q.lookupAttr q.valueAttr

/-- Embeds `FilterQ.is_noop`: `return self.field is None`. -/
def FilterQ.is_noop (q : FilterQ) : Prop :=
  q.fieldAttr = none

/-! ## Django query fragments (src/strawberry_vercajk/_list/django.py)

`get_django_filter_q` translates a `FilterQ` tree into a `django.db.models.Q`
object.  `Q` itself is an external collaborator (the store's query
fragment); `DjangoQ` is modelled from the spec and Django's documented `Q`
behaviour: an empty `Q()` is the identity of `&` and `|` (each operator
returns a copy of the other operand when one side is the empty fragment),
`~` wraps the fragment in a negation node, and two fragments are equal when
they are structurally equal. -/

inductive DjangoQ where
  /-- The empty fragment `Q()`. -/
  | empty
  /-- Fragment carrying a single keyword condition, the kwarg name being
the field joined to the lookup by a double underscore. -/
  | leaf (field : String) (lookup : Option String) (value : Option Nat)
  /-- A conjunction of two non-empty fragments. -/
  | qand (l r : DjangoQ)
  /-- A disjunction of two non-empty fragments. -/
  | qor (l r : DjangoQ)
  /-- A negated fragment `~q`. -/
  | qnot (q : DjangoQ)
deriving DecidableEq

/-- Embeds `Q.__and__`: combining with the empty fragment returns (a copy of) the
other operand; otherwise the two fragments are joined under AND. -/
def DjangoQ.combAnd (q1 q2 : DjangoQ) : DjangoQ :=
  if q2 = .empty then q1
  else if q1 = .empty then q2
  else .qand q1 q2

/-- Embeds `Q.__or__`: combining with the empty fragment returns (a copy of) the
other operand; otherwise the two fragments are joined under OR. -/
def DjangoQ.combOr (q1 q2 : DjangoQ) : DjangoQ :=
  if q2 = .empty then q1
  else if q1 = .empty then q2
  else .qor q1 q2

/-- Evaluation of `_evaluate_filter` applied to an operator-free `FilterQ(field=f,
lookup=lk, value=v)`: the `is_noop` check (`field is None`) yields the empty
fragment, otherwise the single-condition fragment is built. -/
def evalFilterBase (f lk : Option String) (v : Option Nat) : DjangoQ :=
  match f with
  | none => .empty
  | some f => .leaf f lk v

/-- Embeds `get_django_filter_q._evaluate_filter`: checks, in order, `is_and`,
`is_or`, `is_not` (which builds a fresh operator-free `FilterQ` carrying only
the scalar attributes, evaluates it, and negates the result), `is_noop`
(empty fragment), and finally builds the single-condition fragment. -/
def getDjangoFilterQ : FilterQ → DjangoQ
  | .fand l r => .combAnd (getDjangoFilterQ l) (getDjangoFilterQ r)
  | .for_ l r => .combOr (getDjangoFilterQ l) (getDjangoFilterQ r)
  | .fnot f lk v => .qnot (evalFilterBase f lk v)
  | .base f lk v => evalFilterBase f lk v

/-! ## Windowed reverse-FK list loader
(src/strawberry_vercajk/_dataloaders/reverse_fk_list_dataloader.py)

`ReverseFKListDataLoader.load_fn` fetches all child rows whose foreign key is
among the requested parent keys, annotates each row with a per-parent
`DenseRank` window ordered by the user sort (or `pk` as fallback), keeps the
rows whose rank lies in `range(page.page_number, page.page_size + 2)`, groups
them by parent key and builds one page structure per requested key.

Child rows are modelled with a primary key, a parent foreign key and a sort
field value; the fetched list is given in the store's iteration order. -/

structure ChildRow where
  pk : Nat
  parent : Nat
  sortVal : Nat
deriving DecidableEq

/-- SQL `DENSE_RANK() OVER (PARTITION BY parent ORDER BY ordKey)`: one plus
the number of *distinct* order-key values in the row's parent group that are
strictly smaller than the row's own order key.  Equal keys (ties) receive
equal ranks. -/
def denseRank (ordKey : ChildRow → Nat) (group : List ChildRow) (r : ChildRow) : Nat :=
  (((group.map ordKey).filter fun v => v < ordKey r).dedup).length + 1

/-- The rank filter `rank__in=range(page.page_number, page.page_size + 2)`:
a row is kept when `page_number <= rank < page_size + 2`. -/
def rankWindowAdmits (pageNumber pageSize rank : Nat) : Bool :=
  decide (pageNumber ≤ rank ∧ rank < pageSize + 2)

/-- The annotate-and-filter step of `load_fn`: keep the fetched rows whose
per-parent dense rank is admitted by the rank window. -/
def windowKept (ordKey : ChildRow → Nat) (fetched : List ChildRow)
    (pageNumber pageSize : Nat) : List ChildRow :=
  fetched.filter fun r =>
    rankWindowAdmits pageNumber pageSize
      (denseRank ordKey (fetched.filter fun x => x.parent = r.parent) r)

/-- The `defaultdict(list)` grouping loop `for instance in qs:
key_to_instances[getattr(instance, reverse_path)].append(instance)`. -/
def groupByParent (rows : List ChildRow) : Nat → List ChildRow :=
  rows.foldl (fun m r => fun k => if k = r.parent then m k ++ [r] else m k) fun _ => []

/-- Embeds `PageInnerMetadataType` (src/strawberry_vercajk/_list/graphql.py). -/
structure PageInnerMetadataType where
  current_page : Nat
  page_size : Nat
  items_count : Nat
  has_next_page : Bool
  has_previous_page : Bool
deriving DecidableEq

/-- Embeds `ListInnerType` (src/strawberry_vercajk/_list/graphql.py), with child
rows as items. -/
structure ListInnerType where
  items : List ChildRow
  pagination : PageInnerMetadataType
deriving DecidableEq

/-- Embeds `ReverseFKListDataLoader.load_fn`: `db` is the child table, `keys` the
requested parent keys, `ordKey` the effective window ordering (the user sort
key if a sort is configured, else the fallback `pk`), `pageNumber`/`pageSize`
the configured page (defaulting to page 1 with the configured default size).
Every requested key gets a slot, built from its (possibly empty) group of
kept rows; one extra fetched row per group only signals a next page. -/
def reverseFKListLoadFn (db : List ChildRow) (keys : List Nat)
    (ordKey : ChildRow → Nat) (pageNumber pageSize : Nat) : List ListInnerType :=
  let qs0 := db.filter fun r => r.parent ∈ keys
  let qs := windowKept ordKey qs0 pageNumber pageSize
  let grouped := groupByParent qs
  keys.map fun k =>
    let items0 := grouped k
    let cnt := items0.length
    { items := if cnt > pageSize then items0.take pageSize else items0
      pagination :=
        { current_page := pageNumber
          page_size := pageSize
          items_count := if cnt > pageSize then cnt - 1 else cnt
          has_next_page := decide (cnt > pageSize)
          has_previous_page := decide (pageNumber > 1) } }

/-! ## PK loader (src/strawberry_vercajk/_dataloaders/pk_dataloader.py)

`PKDataLoader.load_fn` fetches `model.objects.filter(pk__in=keys)`, indexes
the rows by primary key (`{instance.pk: instance for instance in qs}`, later
rows overwriting earlier ones) and returns one `Optional` slot per key. -/

structure PKRow where
  pk : Nat
  payload : Nat
deriving DecidableEq

/-- The dict comprehension `{instance.pk: instance for instance in qs}`. -/
def pkDict (qs : List PKRow) : Nat → Option PKRow :=
  qs.foldl (fun m r => fun k => if k = r.pk then some r else m k) fun _ => none

/-- Embeds `PKDataLoader.load_fn`: `db` is the model's table; the result has one
slot per requested key, `None` when no fetched row has that primary key. -/
def pkLoadFn (db : List PKRow) (keys : List Nat) : List (Option PKRow) :=
  let qs := db.filter fun r => r.pk ∈ keys
  let idToInstance := pkDict qs
  keys.map fun k => idToInstance k

/-! ## M2M loader (src/strawberry_vercajk/_dataloaders/m2m_dataloader.py)

`M2MDataLoader.load_fn` fetches the through rows `(origin_id, target_id)`
for the requested origin keys, fetches the target rows, builds
`target_to_keys` (targets to the list of origins referencing them) and then
`key_to_targets` (a `defaultdict(list)`), and returns `key_to_targets[key]`
for each requested key in order. -/

structure TargetRow where
  pk : Nat
  payload : Nat
deriving DecidableEq

/-- The `defaultdict(list)` loop `for origin_id, target_id in through_ids:
target_to_keys[target_id].append(origin_id)`. -/
def targetToKeys (throughIds : List (Nat × Nat)) : Nat → List Nat :=
  throughIds.foldl (fun m p => fun t => if t = p.2 then m t ++ [p.1] else m t) fun _ => []

/-- The nested loop `for target in target_qs: for key in
target_to_keys.get(target.pk, []): key_to_targets[key].append(target)`. -/
def keyToTargets (throughIds : List (Nat × Nat)) (targetQs : List TargetRow) :
    Nat → List TargetRow :=
  targetQs.foldl
    (fun m t =>
      (targetToKeys throughIds t.pk).foldl
        (fun m2 k => fun q => if q = k then m2 q ++ [t] else m2 q) m)
    fun _ => []

/-- Embeds `M2MDataLoader.load_fn`: `throughIds` are the fetched through rows
`(origin_id, target_id)`, `targetQs` the fetched target rows (in store
order); the result has one list slot per requested key (`key_to_targets` is
a `defaultdict(list)`, so a key with no targets yields `[]`). -/
def m2mLoadFn (throughIds : List (Nat × Nat)) (targetQs : List TargetRow)
    (keys : List Nat) : List (List TargetRow) :=
  keys.map fun k => keyToTargets throughIds targetQs k

/-! ## Loader identity (src/strawberry_vercajk/_dataloaders/core/dataloaders.py)

`get_loader_unique_key` hashes the tuple of the configuration's entries with
`None`-valued entries omitted, together with the loader class name; since
equal tuples hash equal, the key is modelled by the tuple itself.
`BaseDataLoader.__new__` looks the key up in the request context's
`dataloaders` registry and stores a fresh instance on a miss.  Configuration
values are modelled as `Option Nat` (`none` is Python `None`). -/

/-- Embeds `get_loader_unique_key`: `hash(tuple([(key, value) for key, value in
config.items() if value is not None] + [(loader.__name__,)]))`, modelled by
the hashed tuple: the ordered non-`None` entries paired with the class name. -/
def loaderUniqueKey (name : String) (config : List (String × Option Nat)) :
    List (String × Nat) × String :=
  (config.filterMap (fun p => p.2.map fun v => (p.1, v)), name)

/-- The request-scoped registry `info.context.dataloaders`, as an ordered
association list from loader keys to instance identifiers, together with the
next fresh instance identifier. -/
structure LoaderRegistry where
  entries : List ((List (String × Nat) × String) × Nat)
  nextId : Nat

/-- Registry lookup (`loader_key not in info.context.dataloaders` /
`info.context.dataloaders[loader_key]`). -/
def LoaderRegistry.find (reg : LoaderRegistry) (key : List (String × Nat) × String) :
    Option Nat :=
  (reg.entries.find? fun e => e.1 = key).map fun e => e.2

/-- Embeds `BaseDataLoader.__new__`: return the cached instance for the loader's
unique key, creating and caching a fresh one on a miss.  Returns the
instance identifier and the updated registry. -/
def constructLoader (reg : LoaderRegistry) (name : String)
    (config : List (String × Option Nat)) : Nat × LoaderRegistry :=
  let key := loaderUniqueKey name config
  match reg.find key with
  | some inst => (inst, reg)
  | none => (reg.nextId, ⟨reg.entries ++ [(key, reg.nextId)], reg.nextId + 1⟩)

/-! ## Priming (src/strawberry_vercajk/_dataloaders/core/dataloaders.py)

`BaseDataLoader.prime_many(data, force)` first inserts an already-resolved
`SyncFuture` into `self._cache` for every key of `data` that is absent from
the cache (or unconditionally when `force` is set), then walks `self._queue`
and resolves every queued future whose key is in `data`.  Futures live in a
store indexed by identifiers so that the queue and the cache can alias the
same future; `SyncFuture` objects are always truthy, so `not
self._cache.get(key)` means "no cached entry".  Keys and values are `Nat`. -/

structure LoaderState where
  /-- The future store: identifier to resolved value (`none` = pending). -/
  futures : List (Option Nat)
  /-- Cache `self._cache`: key to future identifier. -/
  cache : Nat → Option Nat
  /-- Queue `self._queue`: pending `(key, future)` pairs. -/
  queue : List (Nat × Nat)

/-- Embeds `SyncFuture.set_result` on the future with the given identifier. -/
def setResult (futures : List (Option Nat)) (fid : Nat) (v : Nat) : List (Option Nat) :=
  futures.set fid (some v)

/-- Python dict lookup `data[key]` / `key in data` for the primed mapping. -/
def dataLookup (data : List (Nat × Nat)) (k : Nat) : Option Nat :=
  (data.find? fun p => p.1 = k).map fun p => p.2

/-- Embeds `BaseDataLoader.prime_many(data, force)`. -/
def primeMany (st : LoaderState) (data : List (Nat × Nat)) (force : Bool) : LoaderState :=
  -- first loop: populate the cache with already-resolved futures
  let st1 := data.foldl
    (fun s kv =>
      if (s.cache kv.1).isNone || force then
        { s with
          futures := s.futures ++ [some kv.2]
          cache := fun k => if k = kv.1 then some s.futures.length else s.cache k }
      else s)
    st
  -- second loop: resolve queued futures whose key was primed
  let futures2 := st.queue.foldl
    (fun f t =>
      match dataLookup data t.1 with
      | some v => setResult f t.2 v
      | none => f)
    st1.futures
  { st1 with futures := futures2 }

/-- Embeds `BaseDataLoader.prime(key, value, force)`:
`self.prime_many({key: value}, force)`. -/
def prime (st : LoaderState) (key value : Nat) (force : Bool) : LoaderState :=
  primeMany st [(key, value)] force

/-! ## Concrete fixtures and invariants used by the theorems -/

/-- Child table for the windowed-grouping scenario: parent 1 has 5 children
(pks 1–5), parent 2 has none, parent 3 has 12 children (pks 20–31). -/
def dbWindowScenario : List ChildRow :=
  [⟨1, 1, 0⟩, ⟨2, 1, 0⟩, ⟨3, 1, 0⟩, ⟨4, 1, 0⟩, ⟨5, 1, 0⟩,
   ⟨20, 3, 0⟩, ⟨21, 3, 0⟩, ⟨22, 3, 0⟩, ⟨23, 3, 0⟩, ⟨24, 3, 0⟩, ⟨25, 3, 0⟩,
   ⟨26, 3, 0⟩, ⟨27, 3, 0⟩, ⟨28, 3, 0⟩, ⟨29, 3, 0⟩, ⟨30, 3, 0⟩, ⟨31, 3, 0⟩]

/-- Child table with three rows of one parent sharing the same user-sort
value (a three-way tie). -/
def dbTiedRows : List ChildRow :=
  [⟨1, 1, 7⟩, ⟨2, 1, 7⟩, ⟨3, 1, 7⟩]

/-- The invariant maintained by the request-scoped registry, which starts
empty and is only ever extended by `constructLoader`: every stored instance
identifier is below the next fresh one, and no two entries share an
instance. -/
def LoaderRegistry.WellFormed (reg : LoaderRegistry) : Prop :=
  (∀ e ∈ reg.entries, e.2 < reg.nextId) ∧ (reg.entries.map Prod.snd).Nodup

/-! ## Helper lemmas -/

theorem combAnd_empty_left (q : DjangoQ) : DjangoQ.combAnd .empty q = q := by
  by_cases h : q = DjangoQ.empty <;> simp [DjangoQ.combAnd, h]

theorem combOr_empty_left (q : DjangoQ) : DjangoQ.combOr .empty q = q := by
  by_cases h : q = DjangoQ.empty <;> simp [DjangoQ.combOr, h]

theorem groupByParent_foldl (rows : List ChildRow) (m : Nat → List ChildRow) (k : Nat) :
    (rows.foldl (fun m r => fun k => if k = r.parent then m k ++ [r] else m k) m) k
      = m k ++ rows.filter (fun r => r.parent = k) := by
  induction rows generalizing m with
  | nil => simp
  | cons r rest ih =>
    simp only [List.foldl_cons, ih, List.filter_cons]
    by_cases h : r.parent = k
    · subst h
      simp
    · have h2 : ¬(k = r.parent) := fun hh => h hh.symm
      simp [h, h2]

theorem groupByParent_apply (rows : List ChildRow) (k : Nat) :
    groupByParent rows k = rows.filter (fun r => r.parent = k) := by
  simpa [groupByParent] using groupByParent_foldl rows (fun _ => []) k

theorem pkDict_foldl (qs : List PKRow) (m : Nat → Option PKRow) (k : Nat)
    (hnd : (qs.map PKRow.pk).Nodup) :
    (qs.foldl (fun m r => fun k => if k = r.pk then some r else m k) m) k
      = match qs.find? (fun r => r.pk = k) with
        | some r => some r
        | none => m k := by
  induction qs generalizing m with
  | nil => simp
  | cons r rest ih =>
    have hnd' : (rest.map PKRow.pk).Nodup := (List.nodup_cons.1 (by simpa using hnd)).2
    have hmem : r.pk ∉ rest.map PKRow.pk := (List.nodup_cons.1 (by simpa using hnd)).1
    simp only [List.foldl_cons]
    rw [ih _ hnd']
    by_cases h : r.pk = k
    · have hnone : rest.find? (fun x => x.pk = k) = none := by
        rw [List.find?_eq_none]
        intro x hx
        simp only [decide_eq_true_eq]
        intro hxk
        have hx2 : x.pk = r.pk := by rw [hxk, h]
        exact hmem (hx2 ▸ List.mem_map_of_mem PKRow.pk hx)
      rw [List.find?_cons_of_pos _ (by simpa using h), hnone]
      simp [h.symm]
    · rw [List.find?_cons_of_neg _ (by simpa using h)]
      have h2 : ¬(k = r.pk) := fun hh => h hh.symm
      cases rest.find? (fun x => x.pk = k) <;> simp [h2]

theorem pkDict_untouched (qs : List PKRow) (m : Nat → Option PKRow) (k : Nat)
    (h : ∀ r ∈ qs, r.pk ≠ k) :
    (qs.foldl (fun m r => fun k => if k = r.pk then some r else m k) m) k = m k := by
  induction qs generalizing m with
  | nil => rfl
  | cons r rest ih =>
    simp only [List.foldl_cons]
    rw [ih _ (fun x hx => h x (List.mem_cons_of_mem _ hx))]
    have h2 : ¬(k = r.pk) := fun hh => h r (List.mem_cons_self _ _) hh.symm
    simp [h2]

theorem targetToKeys_foldl (th : List (Nat × Nat)) (m : Nat → List Nat) (t : Nat) :
    (th.foldl (fun m p => fun q => if q = p.2 then m q ++ [p.1] else m q) m) t
      = m t ++ (th.filter fun p => p.2 = t).map Prod.fst := by
  induction th generalizing m with
  | nil => simp
  | cons p rest ih =>
    simp only [List.foldl_cons, ih, List.filter_cons]
    by_cases h : p.2 = t
    · subst h
      simp
    · have h2 : ¬(t = p.2) := fun hh => h hh.symm
      simp [h, h2]

theorem targetToKeys_apply (th : List (Nat × Nat)) (t : Nat) :
    targetToKeys th t = (th.filter fun p => p.2 = t).map Prod.fst := by
  simpa [targetToKeys] using targetToKeys_foldl th (fun _ => []) t

theorem appendTarget_foldl (ks : List Nat) (m : Nat → List TargetRow) (t : TargetRow) (q : Nat) :
    (ks.foldl (fun m2 k => fun x => if x = k then m2 x ++ [t] else m2 x) m) q
      = m q ++ List.replicate (ks.count q) t := by
  induction ks generalizing m with
  | nil => simp
  | cons k rest ih =>
    simp only [List.foldl_cons, ih, List.count_cons]
    by_cases h : q = k
    · subst h
      simp [List.replicate_succ]
    · have h2 : ¬(k = q) := fun hh => h hh.symm
      simp [h, h2]

theorem keyToTargets_foldl (th : List (Nat × Nat)) (tqs : List TargetRow)
    (m : Nat → List TargetRow) (q : Nat) :
    (tqs.foldl
        (fun m t =>
          (targetToKeys th t.pk).foldl
            (fun m2 k => fun x => if x = k then m2 x ++ [t] else m2 x) m)
        m) q
      = m q ++ tqs.flatMap (fun t => List.replicate ((targetToKeys th t.pk).count q) t) := by
  induction tqs generalizing m with
  | nil => simp
  | cons t rest ih =>
    simp only [List.foldl_cons, ih, List.flatMap_cons, appendTarget_foldl, List.append_assoc]

theorem keyToTargets_apply (th : List (Nat × Nat)) (tqs : List TargetRow) (k : Nat) :
    keyToTargets th tqs k
      = tqs.flatMap (fun t => List.replicate ((targetToKeys th t.pk).count k) t) := by
  simpa [keyToTargets] using keyToTargets_foldl th tqs (fun _ => []) k

theorem targetToKeys_count (th : List (Nat × Nat)) (tpk k : Nat) :
    (targetToKeys th tpk).count k = (th.filter fun p => p.1 = k ∧ p.2 = tpk).length := by
  rw [targetToKeys_apply, List.count_eq_countP, List.countP_map]
  rw [← List.countP_eq_length_filter]
  rw [List.countP_filter]
  apply List.countP_congr
  intro p _
  simp [Function.comp, and_comm]

theorem find?_concat (l : List α) (x : α) (p : α → Bool) :
    (l ++ [x]).find? p
      = match l.find? p with
        | some a => some a
        | none => if p x then some x else none := by
  induction l with
  | nil =>
    simp only [List.nil_append, List.find?_nil, List.find?]
    cases p x <;> rfl
  | cons a rest ih =>
    by_cases h : p a
    · simp [List.find?_cons_of_pos _ h, h]
    · simp only [List.cons_append, List.find?_cons_of_neg _ h, ih]

theorem pk_find?_filter_keys (db : List PKRow) (keys : List Nat) (k : Nat) (hk : k ∈ keys) :
    (db.filter fun r => r.pk ∈ keys).find? (fun r => r.pk = k)
      = db.find? (fun r => r.pk = k) := by
  rw [← List.filter_head? (fun r => decide (r.pk = k)) (db.filter fun r => r.pk ∈ keys)]
  rw [← List.filter_head? (fun r => decide (r.pk = k)) db]
  rw [List.filter_filter]
  congr 1
  apply List.filter_congr
  intro a _
  by_cases h : a.pk = k
  · simp [h, hk]
  · simp [h]

theorem resolveLoop_untouched (data q : List (Nat × Nat)) (f : List (Option Nat)) (j : Nat)
    (h : ∀ p ∈ q, p.2 ≠ j ∨ dataLookup data p.1 = none) :
    (q.foldl
        (fun f t =>
          match dataLookup data t.1 with
          | some v => setResult f t.2 v
          | none => f)
        f)[j]?
      = f[j]? := by
  induction q generalizing f with
  | nil => rfl
  | cons p rest ih =>
    simp only [List.foldl_cons]
    rw [ih _ (fun x hx => h x (List.mem_cons_of_mem _ hx))]
    rcases h p (List.mem_cons_self _ _) with hj | hn
    · cases hd : dataLookup data p.1
      · rfl
      · simp only [hd, setResult]
        exact List.getElem?_set_ne hj
    · simp [hn]

theorem resolveLoop_length (data q : List (Nat × Nat)) (f : List (Option Nat)) :
    (q.foldl
        (fun f t =>
          match dataLookup data t.1 with
          | some v => setResult f t.2 v
          | none => f)
        f).length
      = f.length := by
  induction q generalizing f with
  | nil => rfl
  | cons p rest ih =>
    simp only [List.foldl_cons]
    rw [ih]
    cases hd : dataLookup data p.1 <;> simp [setResult]

theorem resolveLoop_resolved (data q : List (Nat × Nat)) (f : List (Option Nat)) (j w : Nat)
    (hj : j < f.length)
    (hall : ∀ p ∈ q, p.2 = j →
      dataLookup data p.1 = some w ∨ dataLookup data p.1 = none)
    (hex : ∃ p ∈ q, p.2 = j ∧ dataLookup data p.1 = some w) :
    (q.foldl
        (fun f t =>
          match dataLookup data t.1 with
          | some v => setResult f t.2 v
          | none => f)
        f)[j]?
      = some (some w) := by
  induction q generalizing f with
  | nil => simp at hex
  | cons p rest ih =>
    simp only [List.foldl_cons]
    have hlen : ∀ g : List (Option Nat),
        (match dataLookup data p.1 with
          | some v => setResult g p.2 v
          | none => g).length = g.length := by
      intro g
      cases dataLookup data p.1 <;> simp [setResult]
    by_cases hrest : ∃ x ∈ rest, x.2 = j ∧ dataLookup data x.1 = some w
    · exact ih _ (by rw [hlen]; exact hj)
        (fun x hx => hall x (List.mem_cons_of_mem _ hx)) hrest
    · have huntouched : ∀ x ∈ rest, x.2 ≠ j ∨ dataLookup data x.1 = none := by
        intro x hx
        by_cases hxj : x.2 = j
        · rcases hall x (List.mem_cons_of_mem _ hx) hxj with h1 | h2
          · exact absurd ⟨x, hx, hxj, h1⟩ hrest
          · exact Or.inr h2
        · exact Or.inl hxj
      rw [resolveLoop_untouched data rest _ j huntouched]
      rcases hex with ⟨x, hx, hxj, hxw⟩
      rcases List.mem_cons.1 hx with rfl | hxr
      · rw [hxw]
        simp only [setResult, hxj]
        exact List.getElem?_set_self hj
      · exact absurd ⟨x, hxr, hxj, hxw⟩ hrest

theorem loaderRegistry_find_some (reg : LoaderRegistry) (key : List (String × Nat) × String)
    (i : Nat) (h : reg.find key = some i) :
    ∃ e ∈ reg.entries, e.1 = key ∧ e.2 = i := by
  rcases Option.map_eq_some'.1 h with ⟨e, he, hei⟩
  refine ⟨e, List.mem_of_find?_eq_some he, ?_, hei⟩
  have := List.find?_some he
  simpa using this

theorem constructLoader_same_key (reg : LoaderRegistry) (n1 n2 : String)
    (c1 c2 : List (String × Option Nat))
    (hk : loaderUniqueKey n1 c1 = loaderUniqueKey n2 c2) :
    (constructLoader (constructLoader reg n1 c1).2 n2 c2).1 = (constructLoader reg n1 c1).1 := by
  unfold constructLoader
  rw [← hk]
  cases h1 : reg.find (loaderUniqueKey n1 c1) with
  | some i =>
    simp only [h1]
  | none =>
    simp only [h1]
    have : LoaderRegistry.find ⟨reg.entries ++ [(loaderUniqueKey n1 c1, reg.nextId)], reg.nextId + 1⟩
        (loaderUniqueKey n1 c1) = some reg.nextId := by
      unfold LoaderRegistry.find at h1 ⊢
      rw [find?_concat]
      rcases hfind : reg.entries.find? (fun e => e.1 = loaderUniqueKey n1 c1) with _ | e
      · rw [hfind]
        simp
      · rw [hfind] at h1
        simp at h1
    rw [this]

theorem constructLoader_diff_key (reg : LoaderRegistry) (n1 n2 : String)
    (c1 c2 : List (String × Option Nat)) (hwf : reg.WellFormed)
    (hk : loaderUniqueKey n1 c1 ≠ loaderUniqueKey n2 c2) :
    (constructLoader (constructLoader reg n1 c1).2 n2 c2).1 ≠ (constructLoader reg n1 c1).1 := by
  unfold constructLoader
  cases h1 : reg.find (loaderUniqueKey n1 c1) with
  | some i =>
    simp only [h1]
    rcases loaderRegistry_find_some reg _ i h1 with ⟨e1, he1, he1k, he1i⟩
    cases h2 : reg.find (loaderUniqueKey n2 c2) with
    | some j =>
      simp only [h2]
      rcases loaderRegistry_find_some reg _ j h2 with ⟨e2, he2, he2k, he2j⟩
      intro hij
      apply hk
      have : e2 = e1 := List.inj_on_of_nodup_map hwf.2 he2 he1 (by rw [he1i, he2j, hij])
      rw [← he1k, ← he2k, this]
    | none =>
      simp only [h2]
      have : i < reg.nextId := he1i ▸ hwf.1 e1 he1
      omega
  | none =>
    simp only [h1]
    have hfind2 : LoaderRegistry.find
        ⟨reg.entries ++ [(loaderUniqueKey n1 c1, reg.nextId)], reg.nextId + 1⟩
        (loaderUniqueKey n2 c2)
        = reg.find (loaderUniqueKey n2 c2) := by
      unfold LoaderRegistry.find
      rw [find?_concat]
      rcases hfind : reg.entries.find? (fun e => e.1 = loaderUniqueKey n2 c2) with _ | e
      · rw [hfind]
        simp [hk]
      · rw [hfind]
    rw [hfind2]
    cases h2 : reg.find (loaderUniqueKey n2 c2) with
    | some j =>
      simp only [h2]
      rcases loaderRegistry_find_some reg _ j h2 with ⟨e2, he2, he2k, he2j⟩
      have : j < reg.nextId := he2j ▸ hwf.1 e2 he2
      omega
    | none =>
      simp only [h2]
      omega

theorem denseRank_eq_card (ordKey : ChildRow → Nat) (group : List ChildRow) (r : ChildRow) :
    denseRank ordKey group r
      = ((group.map ordKey).toFinset.filter (fun v => v < ordKey r)).card + 1 := by
  rw [denseRank, ← List.card_toFinset, List.toFinset_filter]
  simp only [decide_eq_true_eq]

theorem denseRank_strict_mono (ordKey : ChildRow → Nat) (group : List ChildRow)
    (r1 r2 : ChildRow) (h1 : r1 ∈ group) (hlt : ordKey r1 < ordKey r2) :
    denseRank ordKey group r1 < denseRank ordKey group r2 := by
  rw [denseRank_eq_card, denseRank_eq_card]
  have hv1 : ordKey r1 ∈ (group.map ordKey).toFinset :=
    List.mem_toFinset.2 (List.mem_map_of_mem ordKey h1)
  apply Nat.succ_lt_succ
  apply Finset.card_lt_card
  rw [Finset.ssubset_iff_of_subset]
  · exact ⟨ordKey r1, by simp [hv1, hlt], by simp⟩
  · intro v hv
    rw [Finset.mem_filter] at hv ⊢
    exact ⟨hv.1, hv.2.trans hlt⟩

/-! ## Claim theorems -/

set_option maxRecDepth 4096

/-- C1.  The peek-ahead pagination claim fails on the code: at the concrete
input `all_items = [0]`, `page = 1`, `size = 1` the slice of width
`size + 1` yields exactly `size` items (`[0]`) and `items` is that list, yet
`has_next_page` is `True` — indeed `has_next_page` compares the fetched list
object with the integer `page_size + 1`, which is unequal for every input,
so it returns `True` unconditionally instead of only when `size + 1` items
were fetched. -/
theorem page_has_next_page_code_bug :
    itemsPlusOne ([0] : List Nat) 1 1 = [0] ∧
    pageItems ([0] : List Nat) 1 1 = [0] ∧
    hasNextPage ([0] : List Nat) 1 1 = true ∧
    ∀ (allItems : List Nat) (pageNum pageSize : Nat),
      hasNextPage allItems pageNum pageSize = true := by
  exact ⟨by decide, by decide, rfl, fun _ _ _ => rfl⟩

/-- C2.  The rank filter of the windowed loader keeps ranks in
`range(page_number, page_size + 2)`, i.e. `[page_number, page_size + 1]`.
For `page_number = 2`, `page_size = 10` it admits rank `2` and rejects rank
`12`, whereas the claimed window `[pageStart, pageStart + pageSize]` with
`pageStart = (2-1)*10 + 1 = 11` rejects rank `2` and admits rank `12`: the
code's window is not shifted by `(n-1)*s` for pages beyond the first. -/
theorem rank_window_page_shift_code_bug :
    rankWindowAdmits 2 10 2 = true ∧
    rankWindowAdmits 2 10 12 = false ∧
    ¬((2 - 1) * 10 + 1 ≤ 2) ∧
    ((2 - 1) * 10 + 1 ≤ 12 ∧ (12 : Nat) ≤ (2 - 1) * 10 + 1 + 10) := by
  decide

/-- C3 counterexample.  For the leaf `x = FilterQ(field="name",
lookup="exact", value=1)`, the translation of `~(~x)` differs from the
translation of `x` (double inversion collapses to a single negation), and
the translation of `~Noop` (`~Q()`) differs from the translation of `Noop`
(`Q()`): two of the four claimed identity laws fail. -/
theorem filterq_algebra_counterexample :
    getDjangoFilterQ ((FilterQ.base (some "name") (some "exact") (some 1)).finvert.finvert)
        ≠ getDjangoFilterQ (FilterQ.base (some "name") (some "exact") (some 1)) ∧
    getDjangoFilterQ FilterQ.noop.finvert ≠ getDjangoFilterQ FilterQ.noop := by
  decide

/-- C3 amended.  For every tree `x`: `Noop & x` and `Noop | x` translate to
the same query fragment as `x`; but `~Noop` is not equivalent to `Noop` (it
translates to the negated empty fragment), and double inversion yields
`~x` itself — `~(~x) == ~x`, not `x` — because `__invert__` keeps only the
scalar attributes of its operand. -/
theorem filterq_identity_laws_amended (x : FilterQ) :
    getDjangoFilterQ (.fand FilterQ.noop x) = getDjangoFilterQ x ∧
    getDjangoFilterQ (.for_ FilterQ.noop x) = getDjangoFilterQ x ∧
    x.finvert.finvert = x.finvert ∧
    getDjangoFilterQ FilterQ.noop.finvert = .qnot .empty := by
  refine ⟨?_, ?_, ?_, rfl⟩
  · show DjangoQ.combAnd (getDjangoFilterQ FilterQ.noop) (getDjangoFilterQ x) = _
    rw [show getDjangoFilterQ FilterQ.noop = .empty from rfl, combAnd_empty_left]
  · show DjangoQ.combOr (getDjangoFilterQ FilterQ.noop) (getDjangoFilterQ x) = _
    rw [show getDjangoFilterQ FilterQ.noop = .empty from rfl, combOr_empty_left]
  · cases x <;> rfl

/-- C4.  Windowed grouping scenario: parents `1`, `2`, `3` with `5`, `0` and
`12` matching children, `pageSize = 10`, default page number `1`.  One batch
invocation returns, per key in input order, pages with `5`, `0` and `10`
items, reported `items_count` `5`, `0`, `10`, and `has_next_page` `false`,
`false`, `true`; the keyless parent `2` still gets a slot with `items = []`
and `has_next_page = false`. -/
theorem windowed_grouping_scenario :
    (reverseFKListLoadFn dbWindowScenario [1, 2, 3] ChildRow.pk 1 10).map
        (fun l => (l.items.length, l.pagination.items_count, l.pagination.has_next_page)) =
      [(5, 5, false), (0, 0, false), (10, 10, true)] ∧
    (reverseFKListLoadFn dbWindowScenario [1, 2, 3] ChildRow.pk 1 10).length = 3 := by
  constructor
  · decide
  · decide

/-- C10.  For `page_size ≥ 1`, `total_pages_count` — `math.ceil` of the true
division `total_items_count / page_size`, where `total_items_count` counts
the full underlying sequence — equals the integer ceiling division
`(count + page_size - 1) / page_size`, and it is `0` exactly when the
underlying sequence is empty. -/
theorem total_pages_count_ceiling (allItems : List α) (pageSize : Nat)
    (h : 1 ≤ pageSize) :
    totalPagesCount allItems pageSize
       = (totalItemsCount allItems + pageSize - 1) / pageSize ∧
    (totalPagesCount allItems pageSize = 0 ↔ allItems = []) := by
  have hs0 : 0 < pageSize := h
  have hsQ : (0 : ℚ) < (pageSize : ℚ) := by exact_mod_cast hs0
  have hmain : totalPagesCount allItems pageSize
      = (totalItemsCount allItems + pageSize - 1) / pageSize := by
    set c := totalItemsCount allItems with hc
    rcases Nat.eq_zero_or_pos c with hc0 | hcpos
    · rw [totalPagesCount, ← hc, hc0]
      simp only [Nat.cast_zero, zero_div, Nat.ceil_zero]
      rw [eq_comm, Nat.div_eq_of_lt (by omega)]
    · set d := (c + pageSize - 1) / pageSize with hd
      have hd1 : 1 ≤ d := by
        rw [hd]
        rw [Nat.one_le_div_iff hs0]
        omega
      have hds : d * pageSize ≤ c + pageSize - 1 := Nat.div_mul_le_self _ _
      have hcd : c ≤ d * pageSize := by
        have h1 := Nat.div_add_mod (c + pageSize - 1) pageSize
        have h2 := Nat.mod_lt (c + pageSize - 1) hs0
        rw [Nat.mul_comm]
        rw [← hd] at h1
        omega
      have hlt : (d - 1) * pageSize < c := by
        have he : (d - 1) * pageSize = d * pageSize - pageSize := by
          rw [Nat.sub_mul, Nat.one_mul]
        omega
      rw [totalPagesCount, ← hc]
      rw [Nat.ceil_eq_iff (by omega : d ≠ 0)]
      constructor
      · rw [lt_div_iff₀ hsQ]
        have : ((d - 1 : Nat) : ℚ) * (pageSize : ℚ) < (c : ℚ) := by exact_mod_cast hlt
        exact this
      · rw [div_le_iff₀ hsQ]
        exact_mod_cast hcd
  refine ⟨hmain, ?_⟩
  rw [hmain]
  rw [Nat.div_eq_zero_iff hs0]
  constructor
  · intro hh
    have : totalItemsCount allItems = 0 := by omega
    exact List.length_eq_zero.1 this
  · intro hh
    subst hh
    simp [totalItemsCount]
    omega

/-- C10 witness: eleven items with page size five give `⌈11/5⌉ = 3` pages. -/
theorem total_pages_count_ceiling_witness :
    1 ≤ 5 ∧ totalPagesCount (List.range 11) 5 = (totalItemsCount (List.range 11) + 5 - 1) / 5 :=
  ⟨by decide, (total_pages_count_ceiling (List.range 11) 5 (by decide)).1⟩

/-- C5 counterexample.  Three children of one parent share the same
user-sort value; with `pageSize = 1` and page `1`, `DenseRank` over the
user sort (the code appends no unique tie-breaker) gives all three rows
rank `1`, so all three are admitted to the parent's window — more than the
`pageSize + 1 = 2` rows the claim allows. -/
theorem dense_rank_ties_counterexample :
    ((windowKept ChildRow.sortVal dbTiedRows 1 1).filter fun r => r.parent = 1).length = 3 ∧
    ¬(3 ≤ 1 + 1) := by
  decide

/-- C5 amended.  The window ordering is the user sort when one is supplied
and the child's `pk` only as a fallback; no unique tie-breaker is appended.
When the effective order key is injective on the fetched rows — as with the
`pk` fallback — the per-parent dense ranks are distinct, so each parent's
group admits at most `pageSize + 1` rows; a user sort with ties can admit
more (see the counterexample). -/
theorem window_bound_with_injective_order_key (ordKey : ChildRow → Nat)
    (fetched : List ChildRow) (pageNumber pageSize k : Nat)
    (hnd : fetched.Nodup)
    (hinj : ∀ r1 ∈ fetched, ∀ r2 ∈ fetched, ordKey r1 = ordKey r2 → r1 = r2) :
    ((windowKept ordKey fetched pageNumber pageSize).filter fun r => r.parent = k).length
      ≤ pageSize + 1 := by
  set grp := fetched.filter (fun x => x.parent = k) with hgrp
  set L := (windowKept ordKey fetched pageNumber pageSize).filter
    (fun r => decide (r.parent = k)) with hL
  have hLsub : L.Sublist fetched :=
    (List.filter_sublist _).trans (by rw [windowKept]; exact List.filter_sublist _)
  have hLnd : L.Nodup := List.Nodup.sublist hLsub hnd
  have hmemL : ∀ r ∈ L, r ∈ fetched ∧ r.parent = k ∧
      denseRank ordKey grp r ≤ pageSize + 1 := by
    intro r hr
    rw [hL] at hr
    have hr1 := List.mem_filter.1 hr
    have hpar : r.parent = k := by simpa using hr1.2
    rw [windowKept] at hr1
    have hr2 := List.mem_filter.1 hr1.1
    refine ⟨hr2.1, hpar, ?_⟩
    have hadm := hr2.2
    simp only [rankWindowAdmits, hpar, decide_eq_true_eq] at hadm
    rw [← hgrp] at hadm
    omega
  have hrank_inj : ∀ r1 ∈ grp, ∀ r2 ∈ grp,
      denseRank ordKey grp r1 = denseRank ordKey grp r2 → r1 = r2 := by
    intro r1 h1 r2 h2 heq
    by_contra hne
    have hf1 : r1 ∈ fetched := List.mem_of_mem_filter h1
    have hf2 : r2 ∈ fetched := List.mem_of_mem_filter h2
    have hko : ordKey r1 ≠ ordKey r2 := fun hh => hne (hinj r1 hf1 r2 hf2 hh)
    rcases Nat.lt_or_ge (ordKey r1) (ordKey r2) with hlt | hge
    · exact absurd heq (Nat.ne_of_lt (denseRank_strict_mono ordKey grp r1 r2 h1 hlt))
    · have hlt2 : ordKey r2 < ordKey r1 := lt_of_le_of_ne hge (Ne.symm hko)
      exact absurd heq.symm (Nat.ne_of_lt (denseRank_strict_mono ordKey grp r2 r1 h2 hlt2))
  have hmap_nd : (L.map (fun r => denseRank ordKey grp r)).Nodup := by
    apply List.Nodup.map_on _ hLnd
    intro x hx y hy hxy
    have hxg : x ∈ grp := List.mem_filter.2 ⟨(hmemL x hx).1, by simp [(hmemL x hx).2.1]⟩
    have hyg : y ∈ grp := List.mem_filter.2 ⟨(hmemL y hy).1, by simp [(hmemL y hy).2.1]⟩
    exact hrank_inj x hxg y hyg hxy
  have hsubIcc : ∀ v ∈ L.map (fun r => denseRank ordKey grp r),
      v ∈ Finset.Icc 1 (pageSize + 1) := by
    intro v hv
    rcases List.mem_map.1 hv with ⟨r, hr, rfl⟩
    refine Finset.mem_Icc.2 ⟨?_, (hmemL r hr).2.2⟩
    rw [denseRank]
    omega
  calc L.length = (L.map (fun r => denseRank ordKey grp r)).length :=
        (List.length_map _ _).symm
    _ = (L.map (fun r => denseRank ordKey grp r)).toFinset.card := by
        rw [List.card_toFinset, hmap_nd.dedup]
    _ ≤ (Finset.Icc 1 (pageSize + 1)).card :=
        Finset.card_le_card (fun v hv => hsubIcc v (List.mem_toFinset.1 hv))
    _ = pageSize + 1 := by rw [Nat.card_Icc]; omega

/-- C5 witness: the scenario database with the `pk` fallback ordering keeps
at most `pageSize + 1` rows in parent 3's window. -/
theorem window_bound_with_injective_order_key_witness :
    dbWindowScenario.Nodup ∧
    ((windowKept ChildRow.pk dbWindowScenario 1 10).filter fun r => r.parent = 3).length
      ≤ 10 + 1 :=
  ⟨by decide,
   window_bound_with_injective_order_key ChildRow.pk dbWindowScenario 1 10 3
     (by decide) (by decide)⟩

/-- C6 counterexample.  The configurations `{"page": None}` and `{}` are
different, yet their loader keys agree (the key omits `None`-valued
entries), so two constructions from an empty request registry return the
identical instance — "different configurations return distinct instances"
fails as stated. -/
theorem loader_identity_counterexample :
    ([(("page" : String), (none : Option Nat))] ≠ ([] : List (String × Option Nat))) ∧
    loaderUniqueKey "L" [("page", none)] = loaderUniqueKey "L" [] ∧
    (constructLoader (constructLoader ⟨[], 0⟩ "L" [("page", none)]).2 "L" []).1 =
      (constructLoader ⟨[], 0⟩ "L" [("page", none)]).1 := by
  decide

/-- C6 amended.  Over any well-formed request registry: two constructions
whose loader kind and configuration yield the same key — the ordered
non-`None` configuration entries combined with the kind's name, which is
what the stable hash is taken over — return the identical instance, and two
constructions whose keys differ (different kinds, or configurations that
differ in their non-`None` entries) return distinct instances.
Configurations differing only in `None`-valued (unset) entries share a key
and hence an instance. -/
theorem loader_identity_amended (reg : LoaderRegistry) (n1 n2 : String)
    (c1 c2 : List (String × Option Nat)) (hwf : reg.WellFormed) :
    (loaderUniqueKey n1 c1 = loaderUniqueKey n2 c2 →
      (constructLoader (constructLoader reg n1 c1).2 n2 c2).1
        = (constructLoader reg n1 c1).1) ∧
    (loaderUniqueKey n1 c1 ≠ loaderUniqueKey n2 c2 →
      (constructLoader (constructLoader reg n1 c1).2 n2 c2).1
        ≠ (constructLoader reg n1 c1).1) :=
  ⟨constructLoader_same_key reg n1 n2 c1 c2,
   constructLoader_diff_key reg n1 n2 c1 c2 hwf⟩

/-- C6 witness: on the empty registry, constructing twice with the kind
`"L"` and the configuration `{"page": 2}` reuses the instance. -/
theorem loader_identity_amended_witness :
    (⟨[], 0⟩ : LoaderRegistry).WellFormed ∧
    (constructLoader (constructLoader ⟨[], 0⟩ "L" [("page", some 2)]).2 "L"
        [("page", some 2)]).1
      = (constructLoader ⟨[], 0⟩ "L" [("page", some 2)]).1 :=
  ⟨⟨by simp, by simp⟩,
   (loader_identity_amended ⟨[], 0⟩ "L" "L" [("page", some 2)] [("page", some 2)]
       ⟨by simp, by simp⟩).1 rfl⟩

/-- C7.  Both embedded batch functions re-index fetched rows by key: for
every key list, the result equals the map over the input keys of the value
belonging to each key — for the PK loader the unique fetched row with that
primary key (primary keys are unique in the table), for the M2M loader the
fetched targets joined to that key through the through-rows, in target
fetch order.  In particular the output has one slot per input key, in
input order, independent of fetch row order. -/
theorem load_fn_reindexes_by_key (db : List PKRow) (throughIds : List (Nat × Nat))
    (targetQs : List TargetRow) (fetched : List ChildRow) (keys : List Nat)
    (ordKey : ChildRow → Nat) (pageNumber pageSize : Nat)
    (hpk : (db.map PKRow.pk).Nodup) :
    pkLoadFn db keys = keys.map (fun k => db.find? fun r => r.pk = k) ∧
    m2mLoadFn throughIds targetQs keys =
      keys.map (fun k => targetQs.flatMap fun t =>
        List.replicate ((throughIds.filter fun p => p.1 = k ∧ p.2 = t.pk).length) t) ∧
    (reverseFKListLoadFn fetched keys ordKey pageNumber pageSize).length = keys.length := by
  refine ⟨?_, ?_, by simp [reverseFKListLoadFn]⟩
  · simp only [pkLoadFn]
    apply List.map_congr_left
    intro k hk
    have hsub : ((db.filter fun r => r.pk ∈ keys).map PKRow.pk).Sublist (db.map PKRow.pk) :=
      (List.filter_sublist _).map _
    have hnd2 : ((db.filter fun r => r.pk ∈ keys).map PKRow.pk).Nodup :=
      List.Nodup.sublist hsub hpk
    rw [pkDict, pkDict_foldl _ _ _ hnd2, pk_find?_filter_keys db keys k hk]
    cases db.find? (fun r => r.pk = k) <;> rfl
  · simp only [m2mLoadFn, keyToTargets_apply, targetToKeys_count]

/-- C7 witness: a two-row table fetched in reverse key order still resolves
`[1, 2]` in input order. -/
theorem load_fn_reindexes_by_key_witness :
    (([⟨2, 20⟩, ⟨1, 10⟩] : List PKRow).map PKRow.pk).Nodup ∧
    pkLoadFn [⟨2, 20⟩, ⟨1, 10⟩] [1, 2]
      = [1, 2].map (fun k => ([⟨2, 20⟩, ⟨1, 10⟩] : List PKRow).find? fun r => r.pk = k) :=
  ⟨by decide,
   (load_fn_reindexes_by_key [⟨2, 20⟩, ⟨1, 10⟩] [] [] [] [1, 2] ChildRow.pk 1 10 (by decide)).1⟩

/-- C8.  A requested key for which the fetch returns no row resolves to the
loader variant's missing sentinel, not an error: `None` for the PK loader,
`[]` for the M2M loader, and an empty page (`items = []`,
`has_next_page = false`, `items_count = 0`) for the windowed reverse-FK
list loader. -/
theorem missing_key_resolves_to_sentinel (db : List PKRow) (throughIds : List (Nat × Nat))
    (targetQs : List TargetRow) (fetched : List ChildRow) (keys : List Nat)
    (ordKey : ChildRow → Nat) (k i pageNumber pageSize : Nat)
    (hpk : ∀ r ∈ db, r.pk ≠ k)
    (hth : ∀ p ∈ throughIds, p.1 ≠ k)
    (hfk : ∀ r ∈ fetched, r.parent ≠ k)
    (hkey : keys[i]? = some k) :
    (pkLoadFn db keys)[i]? = some none ∧
    (m2mLoadFn throughIds targetQs keys)[i]? = some [] ∧
    (reverseFKListLoadFn fetched keys ordKey pageNumber pageSize)[i]? =
      some { items := []
             pagination :=
               { current_page := pageNumber
                 page_size := pageSize
                 items_count := 0
                 has_next_page := false
                 has_previous_page := decide (pageNumber > 1) } } := by
  refine ⟨?_, ?_, ?_⟩
  · simp only [pkLoadFn]
    rw [List.getElem?_map, hkey]
    have : pkDict (db.filter fun r => r.pk ∈ keys) k = none := by
      rw [pkDict]
      rw [pkDict_untouched]
      intro r hr
      exact hpk r (List.mem_of_mem_filter hr)
    simp [this]
  · simp only [m2mLoadFn]
    rw [List.getElem?_map, hkey]
    have h0 : keyToTargets throughIds targetQs k = [] := by
      rw [keyToTargets_apply]
      have hfn : ∀ t ∈ targetQs,
          List.replicate ((targetToKeys throughIds t.pk).count k) t = [] := by
        intro t _
        rw [targetToKeys_count]
        rw [List.filter_eq_nil_iff.2]
        · rfl
        · intro p hp
          simp [hth p hp]
      induction targetQs with
      | nil => rfl
      | cons t rest ih =>
        rw [List.flatMap_cons, hfn t (List.mem_cons_self _ _),
          ih (fun x hx => hfn x (List.mem_cons_of_mem _ hx))]
        rfl
    simp [h0]
  · simp only [reverseFKListLoadFn]
    rw [List.getElem?_map, hkey]
    have hgk : groupByParent
        (windowKept ordKey (fetched.filter fun r => r.parent ∈ keys) pageNumber pageSize) k
          = [] := by
      rw [groupByParent_apply]
      rw [List.filter_eq_nil_iff.2]
      intro r hr
      rw [windowKept] at hr
      have hr2 : r ∈ fetched :=
        List.mem_of_mem_filter (List.mem_of_mem_filter hr)
      simp [hfk r hr2]
    simp [hgk]

/-- C8 witness: key `9` has no row in any of the three fetches and resolves
to `None` / `[]` / an empty page at its slot. -/
theorem missing_key_resolves_to_sentinel_witness :
    (∀ r ∈ ([⟨1, 10⟩] : List PKRow), r.pk ≠ 9) ∧
    ([(9 : Nat), 1] : List Nat)[0]? = some 9 ∧
    (pkLoadFn [⟨1, 10⟩] [9, 1])[0]? = some none ∧
    (m2mLoadFn [(1, 4)] [⟨4, 0⟩] [9, 1])[0]? = some [] ∧
    (reverseFKListLoadFn [⟨1, 1, 0⟩] [9, 1] ChildRow.pk 1 10)[0]? =
      some { items := []
             pagination :=
               { current_page := 1
                 page_size := 10
                 items_count := 0
                 has_next_page := false
                 has_previous_page := decide (1 > 1) } } := by
  have h := missing_key_resolves_to_sentinel [⟨1, 10⟩] [(1, 4)] [⟨4, 0⟩] [⟨1, 1, 0⟩]
    [9, 1] ChildRow.pk 9 0 1 10 (by decide) (by decide) (by decide) (by decide)
  exact ⟨by decide, by decide, h.1, h.2.1, h.2.2⟩

/-- C9.  `prime(key, value, force)` inserts a fresh already-resolved
placeholder for `key` into the cache when no cached entry exists or `force`
is set; otherwise it leaves the cache untouched; and in every case each
pending queued request for `key` has its placeholder resolved with the
primed value. -/
theorem prime_inserts_and_resolves_queue (st : LoaderState) (k v : Nat) (force : Bool)
    (hq : ∀ p ∈ st.queue, p.2 < st.futures.length) :
    (((st.cache k).isNone || force) = true →
      (prime st k v force).cache k = some st.futures.length ∧
      (prime st k v force).futures[st.futures.length]? = some (some v)) ∧
    (((st.cache k).isNone || force) = false →
      (prime st k v force).cache = st.cache) ∧
    (∀ p ∈ st.queue, p.1 = k →
      (prime st k v force).futures[p.2]? = some (some v)) := by
  have hdl2 : ∀ x1 : Nat, dataLookup [(k, v)] x1 = if k = x1 then some v else none := by
    intro x1
    by_cases hx : k = x1 <;> simp [dataLookup, List.find?, hx]
  refine ⟨?_, ?_, ?_⟩
  · intro hc
    simp only [prime, primeMany, List.foldl_cons, List.foldl_nil, hc, if_true]
    constructor
    · simp
    · rw [resolveLoop_untouched]
      · simp
      · intro p hp
        exact Or.inl (Nat.ne_of_lt (hq p hp))
  · intro hc
    simp only [prime, primeMany, List.foldl_cons, List.foldl_nil, hc]
    rfl
  · intro p hp hpk
    simp only [prime, primeMany]
    apply resolveLoop_resolved
    · -- p.2 is within the futures of the cache-populating pass
      rcases hc : ((st.cache k).isNone || force) with _ | _
      · simp only [List.foldl_cons, List.foldl_nil, hc, if_false]
        exact hq p hp
      · simp only [List.foldl_cons, List.foldl_nil, hc, if_true]
        simp only [List.length_append]
        have := hq p hp
        omega
    · intro x _ _
      rcases eq_or_ne k x.1 with he | hne
      · exact Or.inl (by rw [hdl2 x.1, if_pos he])
      · exact Or.inr (by rw [hdl2 x.1, if_neg hne])
    · exact ⟨p, hp, rfl, by rw [hdl2 p.1, if_pos hpk.symm]⟩

/-- C9 witness: priming key `5` with value `9` on a state with an empty
cache and a queued request for `5` caches a resolved placeholder and
resolves the queued future. -/
theorem prime_inserts_and_resolves_queue_witness :
    (∀ p ∈ ([(5, 0)] : List (Nat × Nat)), p.2 < ([none] : List (Option Nat)).length) ∧
    (prime ⟨[none], fun _ => none, [(5, 0)]⟩ 5 9 false).futures[(0 : Nat)]? = some (some 9) := by
  refine ⟨by decide, ?_⟩
  exact (prime_inserts_and_resolves_queue ⟨[none], fun _ => none, [(5, 0)]⟩ 5 9 false
    (by decide)).2.2 (5, 0) (by decide) rfl
